import Mathlib

set_option maxRecDepth 100000
set_option maxHeartbeats 2000000

/-!
Shallow embedding of the dhai-chain proof-of-work ledger
(`src/transaction/mod.rs`, `src/block/mod.rs`, `src/mempool/mod.rs`,
`src/chain/mod.rs`) and verification of its specification claims.

Conventions of the embedding:
- bytes are `Nat` values `< 256`, byte strings are `List Nat`;
- Rust `u64`/`u32` fields become `Nat` (wrapping arithmetic is written
  with an explicit `% 2^64` where the source wraps);
- `i64` timestamps become `Int`, encoded two's-complement big-endian;
- fallible Rust functions return `Except`; a Rust panic (the checked
  shift overflow `u64 >> difficulty` with `difficulty ≥ 64`) and the
  unbounded mining loop are modelled with `Option` (`none` = no normal
  return), mining taking an explicit fuel parameter;
- `&mut self` methods are state-passing: they return the result paired
  with the successor state, early returns pairing with the unchanged
  state exactly where the source returns before mutating.
-/

deriving instance DecidableEq for Except

/-! ### Byte-level primitives -/

/-- Big-endian encoding of the low `k` bytes of `n` (Rust `to_be_bytes`
on a `k`-byte integer: the value is implicitly reduced `mod 2^(8*k)`). -/
def natToBeBytes : Nat → Nat → List Nat
  | 0, _ => []
  | k + 1, n => natToBeBytes k (n / 256) ++ [n % 256]

/-- Big-endian interpretation of a byte string as a natural number
(Rust `u64::from_be_bytes` when given 8 bytes). -/
def beBytesToNat (l : List Nat) : Nat :=
  l.foldl (fun acc b => acc * 256 + b) 0

/-- Two's-complement big-endian encoding of an `i64`
(Rust `i64::to_be_bytes`). -/
def i64ToBeBytes (t : Int) : List Nat :=
  natToBeBytes 8 (t % (2 ^ 64)).toNat

/-! ### SHA-256 (the `sha2` crate's `Sha256`), over `Nat` words mod `2^32` -/

/-- Addition on 32-bit words. -/
def add32 (a b : Nat) : Nat := (a + b) % 4294967296

/-- Bitwise complement on 32-bit words (inputs `< 2^32`). -/
def not32 (a : Nat) : Nat := a ^^^ 4294967295

/-- Right rotation of a 32-bit word by `k` places. -/
def rotr32 (k n : Nat) : Nat :=
  ((n >>> k) ||| (n <<< (32 - k))) % 4294967296

/-- SHA-256 `Ch` function. -/
def shaCh (e f g : Nat) : Nat := (e &&& f) ^^^ (not32 e &&& g)

/-- SHA-256 `Maj` function. -/
def shaMaj (a b c : Nat) : Nat := (a &&& b) ^^^ (a &&& c) ^^^ (b &&& c)

/-- SHA-256 big sigma 0. -/
def bsig0 (a : Nat) : Nat := rotr32 2 a ^^^ rotr32 13 a ^^^ rotr32 22 a

/-- SHA-256 big sigma 1. -/
def bsig1 (e : Nat) : Nat := rotr32 6 e ^^^ rotr32 11 e ^^^ rotr32 25 e

/-- SHA-256 small sigma 0. -/
def ssig0 (w : Nat) : Nat := rotr32 7 w ^^^ rotr32 18 w ^^^ (w >>> 3)

/-- SHA-256 small sigma 1. -/
def ssig1 (w : Nat) : Nat := rotr32 17 w ^^^ rotr32 19 w ^^^ (w >>> 10)

/-- The 64 SHA-256 round constants (FIPS 180-4), in decimal. -/
def shaK : List Nat :=
  [1116352408, 1899447441, 3049323471, 3921009573, 961987163, 1508970993,
   2453635748, 2870763221, 3624381080, 310598401, 607225278, 1426881987,
   1925078388, 2162078206, 2614888103, 3248222580, 3835390401, 4022224774,
   264347078, 604807628, 770255983, 1249150122, 1555081692, 1996064986,
   2554220882, 2821834349, 2952996808, 3210313671, 3336571891, 3584528711,
   113926993, 338241895, 666307205, 773529912, 1294757372, 1396182291,
   1695183700, 1986661051, 2177026350, 2456956037, 2730485921, 2820302411,
   3259730800, 3345764771, 3516065817, 3600352804, 4094571909, 275423344,
   430227734, 506948616, 659060556, 883997877, 958139571, 1322822218,
   1537002063, 1747873779, 1955562222, 2024104815, 2227730452, 2361852424,
   2428436474, 2756734187, 3204031479, 3329325298]

/-- The SHA-256 initial hash state (FIPS 180-4), in decimal. -/
def shaH0 : List Nat :=
  [1779033703, 3144134277, 1013904242, 2773480762,
   1359893119, 2600822924, 528734635, 1541459225]

/-- Group a byte string into 32-bit big-endian words. -/
def bytesToWords : List Nat → List Nat
  | b0 :: b1 :: b2 :: b3 :: rest =>
      (((b0 * 256 + b1) * 256 + b2) * 256 + b3) :: bytesToWords rest
  | _ => []

/-- Extend a 16-word message block by `k` further schedule words. -/
def shaSched : Nat → List Nat → List Nat
  | 0, ws => ws
  | k + 1, ws =>
      let i := ws.length
      shaSched k (ws ++ [add32 (add32 (ssig1 (ws.getD (i - 2) 0)) (ws.getD (i - 7) 0))
                         (add32 (ssig0 (ws.getD (i - 15) 0)) (ws.getD (i - 16) 0))])

/-- One SHA-256 compression round on the 8-word working state. -/
def shaRound (k w : Nat) : List Nat → List Nat
  | [a, b, c, d, e, f, g, h] =>
      let t1 := add32 (add32 (add32 h (bsig1 e)) (add32 (shaCh e f g) k)) w
      let t2 := add32 (bsig0 a) (shaMaj a b c)
      [add32 t1 t2, a, b, c, add32 d t1, e, f, g]
  | st => st

/-- Compress one 64-byte block into the running 8-word state. -/
def shaCompress (h : List Nat) (block : List Nat) : List Nat :=
  let ws := shaSched 48 (bytesToWords block)
  let st := (shaK.zip ws).foldl (fun st kw => shaRound kw.1 kw.2 st) h
  (h.zip st).map fun p => add32 p.1 p.2

/-- SHA-256 padding: append `0x80`, zeros to 56 mod 64, then the 8-byte
big-endian bit length. -/
def sha256pad (msg : List Nat) : List Nat :=
  msg ++ [128] ++ List.replicate ((119 - msg.length % 64) % 64) 0
      ++ natToBeBytes 8 (msg.length * 8)

/-- Split a byte string into 64-byte chunks (structural recursion on a
step counter so that the kernel can evaluate it; `fuel ≥ l.length`
always holds at the call sites, each step consuming at least one byte). -/
def chunks64Go : Nat → List Nat → List (List Nat)
  | _, [] => []
  | 0, _ :: _ => []
  | fuel + 1, b :: rest =>
      (b :: rest).take 64 :: chunks64Go fuel ((b :: rest).drop 64)

/-- Split a byte string into 64-byte chunks. -/
def chunks64 (l : List Nat) : List (List Nat) :=
  chunks64Go l.length l

/-- SHA-256 of a byte string, as 32 bytes. -/
def sha256 (msg : List Nat) : List Nat :=
  (((chunks64 (sha256pad msg)).foldl shaCompress shaH0).map (natToBeBytes 4)).flatten

attribute [irreducible] sha256

/-! ### Transactions (`src/transaction/mod.rs`) -/

/-- `TransactionError` from `src/transaction/mod.rs`. -/
inductive TransactionError
  | InvalidAmount
  | InvalidAddress
  | SameSenderReceiver
deriving DecidableEq, Repr

/-- `Address`: a 20-byte opaque identifier (`pub struct Address([u8; 20])`). -/
structure Address where
  bytes : List Nat
deriving DecidableEq, Repr

/-- `Transaction { sender, receiver, amount: u64, nonce: u64 }`. -/
structure Transaction where
  sender : Address
  receiver : Address
  amount : Nat
  nonce : Nat
deriving DecidableEq, Repr

/-- `Transaction::validate`: `amount == 0` always fails; `sender == receiver`
fails unless `is_genesis`. -/
def Transaction.validate (t : Transaction) (is_genesis : Bool) :
    Except TransactionError Unit :=
  if t.amount = 0 then .error .InvalidAmount
  else if ¬is_genesis ∧ t.sender = t.receiver then .error .SameSenderReceiver
  else .ok ()

/-- `Transaction::hash`: SHA-256 of sender bytes, receiver bytes,
big-endian amount, big-endian nonce. -/
def Transaction.hash (t : Transaction) : List Nat :=
  sha256 (t.sender.bytes ++ t.receiver.bytes
    ++ natToBeBytes 8 t.amount ++ natToBeBytes 8 t.nonce)

/-! ### Blocks (`src/block/mod.rs`) -/

/-- `BlockError` from `src/block/mod.rs`. -/
inductive BlockError
  | InvalidHash
  | InvalidPreviousHash
  | InvalidProofOfWork
  | InvalidDifficulty
  | EmptyTransactions
  | TransactionError (e : TransactionError)
deriving DecidableEq, Repr

/-- `Block { timestamp, transactions, previous_hash, hash, nonce: u64,
difficulty: u32 }`. The timestamp is the `i64` unix timestamp the source
feeds to the hasher. -/
structure Block where
  timestamp : Int
  transactions : List Transaction
  previous_hash : List Nat
  hash : List Nat
  nonce : Nat
  difficulty : Nat
deriving DecidableEq, Repr

/-- The byte string `Block::calculate_hash` feeds to the hasher: the
concatenation of its `hasher.update` calls in source order (timestamp,
then per-transaction fields via the `for` loop, then `previous_hash`,
then the block nonce). -/
def blockBytes (b : Block) : List Nat :=
  i64ToBeBytes b.timestamp
    ++ b.transactions.foldl
        (fun acc t => acc ++ t.sender.bytes ++ t.receiver.bytes
          ++ natToBeBytes 8 t.amount ++ natToBeBytes 8 t.nonce) []
    ++ b.previous_hash
    ++ natToBeBytes 8 b.nonce

/-- `Block::calculate_hash`. -/
def Block.calculate_hash (b : Block) : List Nat :=
  sha256 (blockBytes b)

/-- `Block::new`: rejects empty transaction lists, otherwise builds the
block with `hash = [0; 32]`, `nonce = 0` and immediately self-hashes.
The wall-clock read `OffsetDateTime::now_utc()` is injected as the
`timestamp` argument. -/
def Block.new (timestamp : Int) (transactions : List Transaction)
    (previous_hash : List Nat) (difficulty : Nat) : Except BlockError Block :=
  if transactions = [] then .error .EmptyTransactions
  else
    let b : Block :=
      { timestamp := timestamp, transactions := transactions,
        previous_hash := previous_hash, hash := List.replicate 32 0,
        nonce := 0, difficulty := difficulty }
    .ok { b with hash := b.calculate_hash }

/-- The big-endian `u64` made of the first 8 bytes of a 32-byte hash
(`u64::from_be_bytes(hash[0..8].try_into().unwrap())`). -/
def hashNum (h : List Nat) : Nat :=
  beBytesToNat (h.take 8)

/-- The mining target `0u64.wrapping_sub(1) >> difficulty`, i.e.
`u64::MAX >> difficulty`. Under Rust's checked shift semantics the shift
panics when `difficulty ≥ 64`, modelled as `none`. -/
def target (difficulty : Nat) : Option Nat :=
  if difficulty < 64 then some ((2 ^ 64 - 1) >>> difficulty) else none

/-- `Block::has_valid_proof`: compares the stored hash's leading 8 bytes
against the difficulty target (`none` = the target computation panics). -/
def Block.has_valid_proof (b : Block) : Option Bool :=
  (target b.difficulty).map fun t => decide (hashNum b.hash ≤ t)

/-- The body of `Block::mine`'s `loop`, with fuel bounding the number of
iterations (`none` = no normal return within the fuel, or the
pre-loop target computation panicked). -/
def mineLoop (b : Block) (t : Nat) : Nat → Option Block
  | 0 => none
  | fuel + 1 =>
      let hash := b.calculate_hash
      if hashNum hash ≤ t then some { b with hash := hash }
      else mineLoop { b with nonce := (b.nonce + 1) % 2 ^ 64 } t fuel

/-- `Block::mine`: computes the target once, then searches nonces. -/
def Block.mine (b : Block) (fuel : Nat) : Option Block :=
  match target b.difficulty with
  | none => none
  | some t => mineLoop b t fuel

/-- The `for transaction in &self.transactions { transaction.validate(is_genesis)?; }`
loop of `Block::verify`: the first validation error, in sequence order. -/
def firstTxError : List Transaction → Bool → Option TransactionError
  | [], _ => none
  | t :: ts, g =>
      match t.validate g with
      | .error e => some e
      | .ok _ => firstTxError ts g

/-- `Block::verify`: empty check, per-transaction validation, hash
integrity, then proof of work (`none` = the proof-of-work target
computation panics). -/
def Block.verify (b : Block) (is_genesis : Bool) :
    Option (Except BlockError Unit) :=
  if b.transactions = [] then some (.error .EmptyTransactions)
  else
    match firstTxError b.transactions is_genesis with
    | some e => some (.error (.TransactionError e))
    | none =>
        if b.hash ≠ b.calculate_hash then some (.error .InvalidHash)
        else
          match b.has_valid_proof with
          | none => none
          | some true => some (.ok ())
          | some false => some (.error .InvalidProofOfWork)

/-! ### Mempool (`src/mempool/mod.rs`) -/

/-- `MempoolError` from `src/mempool/mod.rs`. -/
inductive MempoolError
  | DuplicateTransaction
  | InvalidTransaction
deriving DecidableEq, Repr

/-- The `BinaryHeap` ordering key: `PrioritizedTransaction`'s reversed
comparison makes a min-heap on the transaction nonce, and
`get_transactions` sorts by this key (`sort_by_key(|tx| tx.nonce())`). -/
def byNonce (a b : Transaction) : Prop := a.nonce ≤ b.nonce

instance : DecidableRel byNonce := fun a b => Nat.decLe a.nonce b.nonce

instance : IsTotal Transaction byNonce := ⟨fun a b => Nat.le_total a.nonce b.nonce⟩

instance : IsTrans Transaction byNonce := ⟨fun _ _ _ h h' => Nat.le_trans h h'⟩

/-- Lookup in the association list modelling the
`HashMap<[u8; 32], Transaction>` keyed by content hash. -/
def txLookup (h : List Nat) : List (List Nat × Transaction) → Option Transaction
  | [] => none
  | (k, t) :: rest => if k = h then some t else txLookup h rest

/-- `HashMap::contains_key`. -/
def containsKey (h : List Nat) (l : List (List Nat × Transaction)) : Bool :=
  (txLookup h l).isSome

/-- `Mempool { transactions: HashMap, priority_queue: BinaryHeap }`.
The map is an association list keyed by content hash; the heap is a
list carrying its (unspecified-order) contents. -/
structure Mempool where
  transactions : List (List Nat × Transaction)
  priority_queue : List Transaction
deriving DecidableEq, Repr

/-- `Mempool::new`. -/
def Mempool.new : Mempool :=
  { transactions := [], priority_queue := [] }

/-- `Mempool::add_transaction` (state-passing: the error cases return
before the source mutates anything). -/
def Mempool.add_transaction (m : Mempool) (t : Transaction) :
    Except MempoolError Unit × Mempool :=
  let tx_hash := t.hash
  if containsKey tx_hash m.transactions then (.error .DuplicateTransaction, m)
  else
    match t.validate false with
    | .error _ => (.error .InvalidTransaction, m)
    | .ok _ =>
        (.ok (), { transactions := m.transactions ++ [(tx_hash, t)],
                   priority_queue := t :: m.priority_queue })

/-- `Mempool::get_transactions`: collect the heap's contents, sort them
by ascending nonce (`sort_by_key` is a stable sort, modelled by
`List.insertionSort`), and take the first `limit`. -/
def Mempool.get_transactions (m : Mempool) (limit : Nat) : List Transaction :=
  (List.insertionSort byNonce m.priority_queue).take limit

/-- `Mempool::remove_transactions`: for each given transaction, remove
its content hash from the map and rebuild the heap without it. -/
def Mempool.remove_transactions (m : Mempool) (txs : List Transaction) : Mempool :=
  txs.foldl
    (fun m t =>
      let tx_hash := t.hash
      { transactions := m.transactions.filter fun kv => kv.1 ≠ tx_hash,
        priority_queue := m.priority_queue.filter fun pt => pt.hash ≠ tx_hash })
    m

/-- `Mempool::contains`. -/
def Mempool.contains (m : Mempool) (t : Transaction) : Bool :=
  containsKey t.hash m.transactions

/-- `Mempool::len`. -/
def Mempool.len (m : Mempool) : Nat :=
  m.transactions.length

/-- Consistency of the two mempool views (the §3 invariant, which every
reachable mempool satisfies): the heap holds as many entries as the map,
and every heap entry is found in the map under its content hash. -/
def Mempool.WF (m : Mempool) : Prop :=
  m.priority_queue.length = m.transactions.length ∧
    ∀ t ∈ m.priority_queue, txLookup t.hash m.transactions = some t

instance (m : Mempool) : Decidable m.WF := by
  unfold Mempool.WF; infer_instance

/-! ### Chain (`src/chain/mod.rs`) -/

/-- `ChainError` from `src/chain/mod.rs`. -/
inductive ChainError
  | InvalidGenesis
  | InvalidBlockLink
  | BlockValidation (e : BlockError)
  | EmptyChain
  | MempoolError (e : MempoolError)
deriving DecidableEq, Repr

/-- `Chain { blocks, current_difficulty: u32, mempool }`. -/
structure Chain where
  blocks : List Block
  current_difficulty : Nat
  mempool : Mempool
deriving DecidableEq, Repr

/-- The 32-byte all-zero hash. -/
def zeros32 : List Nat := List.replicate 32 0

/-- The default genesis transaction built by `Chain::new` when none is
supplied: zero sender and receiver, amount 1, nonce 0. -/
def defaultGenesisTx : Transaction :=
  { sender := ⟨List.replicate 20 0⟩, receiver := ⟨List.replicate 20 0⟩,
    amount := 1, nonce := 0 }

/-- `Chain::new`: build a genesis block over the supplied or default
transaction with an all-zero previous hash, mine it, and start with an
empty mempool. Timestamp and mining fuel are injected. -/
def Chain.new (difficulty : Nat) (genesis_tx : Option Transaction)
    (ts : Int) (fuel : Nat) : Option (Except ChainError Chain) :=
  let gtx := genesis_tx.getD defaultGenesisTx
  match Block.new ts [gtx] zeros32 difficulty with
  | .error e => some (.error (.BlockValidation e))
  | .ok gb =>
      match gb.mine fuel with
      | none => none
      | some mined =>
          some (.ok { blocks := [mined], current_difficulty := difficulty,
                      mempool := Mempool.new })

/-- `Chain::add_block` (state-passing; every early return pairs the
outcome with the untouched chain, as in the source, where the mempool
eviction and the block append are the final two statements). -/
def Chain.add_block (c : Chain) (ts : Int) (fuel : Nat) :
    Option (Except ChainError Unit × Chain) :=
  match c.blocks.getLast? with
  | none => some (.error .EmptyChain, c)
  | some previous_block =>
      let transactions := c.mempool.get_transactions 10
      if transactions = [] then some (.ok (), c)
      else
        match Block.new ts transactions previous_block.hash c.current_difficulty with
        | .error e => some (.error (.BlockValidation e), c)
        | .ok nb =>
            match nb.mine fuel with
            | none => none
            | some mined =>
                match mined.verify false with
                | none => none
                | some (.error e) => some (.error (.BlockValidation e), c)
                | some (.ok _) =>
                    some (.ok (),
                      { blocks := c.blocks ++ [mined],
                        current_difficulty := c.current_difficulty,
                        mempool := c.mempool.remove_transactions transactions })

/-- The `windows(2)` walk of `Chain::verify`: check each block's link to
its predecessor, then its strict verification. -/
def verifyLinks : Block → List Block → Option (Except ChainError Unit)
  | _, [] => some (.ok ())
  | prev, cur :: rest =>
      if cur.previous_hash ≠ prev.hash then some (.error .InvalidBlockLink)
      else
        match cur.verify false with
        | none => none
        | some (.error e) => some (.error (.BlockValidation e))
        | some (.ok _) => verifyLinks cur rest

/-- `Chain::verify`: empty check, genesis previous-hash check, genesis
verification under the genesis relaxation, then the pairwise walk. -/
def Chain.verify (c : Chain) : Option (Except ChainError Unit) :=
  match c.blocks with
  | [] => some (.error .EmptyChain)
  | g :: rest =>
      if g.previous_hash ≠ zeros32 then some (.error .InvalidGenesis)
      else
        match g.verify true with
        | none => none
        | some (.error e) => some (.error (.BlockValidation e))
        | some (.ok _) => verifyLinks g rest

/-! ### Helper lemmas: transaction validation loop -/

/-- The validation loop reports no error exactly when every transaction
validates. -/
theorem firstTxError_eq_none_iff (l : List Transaction) (g : Bool) :
    firstTxError l g = none ↔ ∀ t ∈ l, t.validate g = .ok () := by
  induction l with
  | nil => simp [firstTxError]
  | cons t ts ih =>
      simp only [firstTxError]
      cases hv : t.validate g with
      | error e => simp [hv, List.forall_mem_cons]
      | ok u => cases u; simp [hv, List.forall_mem_cons, ih]

/-- The validation loop reports `e` exactly when some transaction fails
with `e` and all transactions before it validate. -/
theorem firstTxError_eq_some_iff (l : List Transaction) (g : Bool)
    (e : TransactionError) :
    firstTxError l g = some e ↔
      ∃ pre t post, l = pre ++ t :: post ∧
        (∀ u ∈ pre, u.validate g = .ok ()) ∧ t.validate g = .error e := by
  induction l with
  | nil =>
      simp only [firstTxError]
      constructor
      · intro h; cases h
      · rintro ⟨pre, t, post, heq, -, -⟩
        exact absurd heq.symm (List.append_ne_nil_of_right_ne_nil pre (List.cons_ne_nil t post))
  | cons t ts ih =>
      simp only [firstTxError]
      cases hv : t.validate g with
      | error e' =>
          constructor
          · intro h
            cases h
            exact ⟨[], t, ts, rfl, by simp, hv⟩
          · rintro ⟨pre, t', post, heq, hpre, ht'⟩
            cases pre with
            | nil =>
                simp only [List.nil_append, List.cons.injEq] at heq
                obtain ⟨rfl, rfl⟩ := heq
                rw [hv] at ht'
                cases ht'
                rfl
            | cons p ps =>
                simp only [List.cons_append, List.cons.injEq] at heq
                obtain ⟨rfl, -⟩ := heq
                have hok := hpre t (by simp)
                rw [hv] at hok
                cases hok
      | ok u =>
          cases u
          rw [ih]
          constructor
          · rintro ⟨pre, t', post, heq, hpre, ht'⟩
            refine ⟨t :: pre, t', post, by rw [heq, List.cons_append], ?_, ht'⟩
            intro u hu
            rcases List.mem_cons.mp hu with rfl | hu
            · exact hv
            · exact hpre u hu
          · rintro ⟨pre, t', post, heq, hpre, ht'⟩
            cases pre with
            | nil =>
                simp only [List.nil_append, List.cons.injEq] at heq
                obtain ⟨rfl, rfl⟩ := heq
                rw [hv] at ht'
                cases ht'
            | cons p ps =>
                simp only [List.cons_append, List.cons.injEq] at heq
                obtain ⟨rfl, hts⟩ := heq
                exact ⟨ps, t', post, hts, fun u hu => hpre u (by simp [hu]), ht'⟩

/-! ### Helper lemmas: the five outcomes of `Block.verify` -/

theorem verify_eq_emptyTx_iff (b : Block) (g : Bool) :
    b.verify g = some (.error .EmptyTransactions) ↔ b.transactions = [] := by
  unfold Block.verify
  by_cases hemp : b.transactions = []
  · simp [hemp]
  · simp only [hemp, if_false, iff_false]
    cases hfe : firstTxError b.transactions g
    · by_cases hh : b.hash = b.calculate_hash
      · simp only [hh, ne_eq, not_true_eq_false, if_false]
        cases hp : b.has_valid_proof with
        | none => simp
        | some p => cases p <;> simp
      · simp [hh]
    · simp

theorem verify_eq_txError_iff (b : Block) (g : Bool) (e : TransactionError) :
    b.verify g = some (.error (.TransactionError e)) ↔
      firstTxError b.transactions g = some e := by
  unfold Block.verify
  by_cases hemp : b.transactions = []
  · simp [hemp, firstTxError]
  · simp only [hemp, if_false]
    cases hfe : firstTxError b.transactions g
    · by_cases hh : b.hash = b.calculate_hash
      · simp only [hh, ne_eq, not_true_eq_false, if_false]
        cases hp : b.has_valid_proof with
        | none => simp
        | some p => cases p <;> simp
      · simp [hh]
    · simp

theorem verify_eq_invalidHash_iff (b : Block) (g : Bool) :
    b.verify g = some (.error .InvalidHash) ↔
      b.transactions ≠ [] ∧ firstTxError b.transactions g = none ∧
        b.hash ≠ b.calculate_hash := by
  unfold Block.verify
  by_cases hemp : b.transactions = []
  · simp [hemp]
  · simp only [hemp, if_false, ne_eq, not_false_eq_true, true_and]
    cases hfe : firstTxError b.transactions g
    · by_cases hh : b.hash = b.calculate_hash
      · simp only [hh, ne_eq, not_true_eq_false, if_false]
        cases hp : b.has_valid_proof with
        | none => simp
        | some p => cases p <;> simp
      · simp [hh]
    · simp

theorem verify_eq_invalidPoW_iff (b : Block) (g : Bool) {tv : Nat}
    (htv : target b.difficulty = some tv) :
    b.verify g = some (.error .InvalidProofOfWork) ↔
      b.transactions ≠ [] ∧ firstTxError b.transactions g = none ∧
        b.hash = b.calculate_hash ∧ ¬hashNum b.hash ≤ tv := by
  unfold Block.verify
  have hp : b.has_valid_proof = some (decide (hashNum b.hash ≤ tv)) := by
    simp [Block.has_valid_proof, htv]
  by_cases hemp : b.transactions = []
  · simp [hemp]
  · simp only [hemp, if_false, ne_eq, not_false_eq_true, true_and]
    cases hfe : firstTxError b.transactions g
    · by_cases hh : b.hash = b.calculate_hash
      · simp only [hh, ne_eq, not_true_eq_false, if_false, true_and]
        rw [hh] at hp
        rw [hp]
        by_cases hle : hashNum b.calculate_hash ≤ tv <;> simp [hle]
      · simp [hh]
    · simp

theorem verify_eq_ok_iff (b : Block) (g : Bool) {tv : Nat}
    (htv : target b.difficulty = some tv) :
    b.verify g = some (.ok ()) ↔
      b.transactions ≠ [] ∧ firstTxError b.transactions g = none ∧
        b.hash = b.calculate_hash ∧ hashNum b.hash ≤ tv := by
  unfold Block.verify
  have hp : b.has_valid_proof = some (decide (hashNum b.hash ≤ tv)) := by
    simp [Block.has_valid_proof, htv]
  by_cases hemp : b.transactions = []
  · simp [hemp]
  · simp only [hemp, if_false, ne_eq, not_false_eq_true, true_and]
    cases hfe : firstTxError b.transactions g
    · by_cases hh : b.hash = b.calculate_hash
      · simp only [hh, ne_eq, not_true_eq_false, if_false, true_and]
        rw [hh] at hp
        rw [hp]
        by_cases hle : hashNum b.calculate_hash ≤ tv <;> simp [hle]
      · simp [hh]
    · simp

/-- C1: `Block::verify` performs its checks in the fixed order
transactions-nonempty → per-transaction validation (first error, in
sequence order) → hash integrity → proof of work, returning the first
failure, and `ok` exactly when all four checks pass (the proof-of-work
outcomes stated whenever the difficulty target computation returns,
i.e. `difficulty < 64`, cf. C10). -/
theorem C1_block_verify_check_order (b : Block) (g : Bool) :
    (b.verify g = some (.error .EmptyTransactions) ↔ b.transactions = []) ∧
    (∀ e, b.verify g = some (.error (.TransactionError e)) ↔
      ∃ pre t post, b.transactions = pre ++ t :: post ∧
        (∀ u ∈ pre, u.validate g = .ok ()) ∧ t.validate g = .error e) ∧
    (b.verify g = some (.error .InvalidHash) ↔
      b.transactions ≠ [] ∧ (∀ t ∈ b.transactions, t.validate g = .ok ()) ∧
        b.hash ≠ b.calculate_hash) ∧
    (∀ tv, target b.difficulty = some tv →
      ((b.verify g = some (.error .InvalidProofOfWork) ↔
        b.transactions ≠ [] ∧ (∀ t ∈ b.transactions, t.validate g = .ok ()) ∧
          b.hash = b.calculate_hash ∧ ¬hashNum b.hash ≤ tv) ∧
       (b.verify g = some (.ok ()) ↔
        b.transactions ≠ [] ∧ (∀ t ∈ b.transactions, t.validate g = .ok ()) ∧
          b.hash = b.calculate_hash ∧ hashNum b.hash ≤ tv))) := by
  refine ⟨verify_eq_emptyTx_iff b g, ?_, ?_, ?_⟩
  · intro e
    rw [verify_eq_txError_iff, firstTxError_eq_some_iff]
  · rw [verify_eq_invalidHash_iff, firstTxError_eq_none_iff]
  · intro tv htv
    constructor
    · rw [verify_eq_invalidPoW_iff b g htv, firstTxError_eq_none_iff]
    · rw [verify_eq_ok_iff b g htv, firstTxError_eq_none_iff]

/-! ### Helper lemmas: the difficulty target and mining -/

/-- For `d < 64`, the shifted all-ones word equals `2^64 / 2^d - 1`. -/
theorem shiftTarget_eq {d : Nat} (hd : d < 64) :
    (2 ^ 64 - 1) >>> d = 2 ^ 64 / 2 ^ d - 1 := by
  rw [Nat.shiftRight_eq_div_pow]
  have h2 : (2 : Nat) ^ 64 = 2 ^ d * 2 ^ (64 - d) := by
    rw [← pow_add]; congr 1; omega
  have hposd : 0 < (2 : Nat) ^ d := pow_pos (by norm_num) d
  have hsplit : 2 ^ d * 2 ^ (64 - d) - 1 = 2 ^ d * (2 ^ (64 - d) - 1) + (2 ^ d - 1) := by
    have hpose : 0 < (2 : Nat) ^ (64 - d) := pow_pos (by norm_num) _
    have hmul : 2 ^ d * 2 ^ (64 - d) = 2 ^ d * (2 ^ (64 - d) - 1) + 2 ^ d := by
      rw [← Nat.mul_succ]
      congr 1
      omega
    omega
  rw [h2, hsplit, Nat.mul_add_div hposd, Nat.mul_div_cancel_left _ hposd,
    Nat.div_eq_of_lt (by omega)]
  omega

/-- The target computation returns exactly for difficulties below 64. -/
theorem target_eq_of_lt {d : Nat} (hd : d < 64) :
    target d = some (2 ^ 64 / 2 ^ d - 1) := by
  unfold target
  rw [if_pos hd, shiftTarget_eq hd]

/-- The hash preimage ignores the stored `hash` field. -/
theorem blockBytes_set_hash (b : Block) (h : List Nat) :
    blockBytes { b with hash := h } = blockBytes b := rfl

/-- `calculate_hash` ignores the stored `hash` field. -/
theorem calculate_hash_set_hash (b : Block) (h : List Nat) :
    Block.calculate_hash { b with hash := h } = b.calculate_hash :=
  congrArg sha256 (blockBytes_set_hash b h)

/-- The mining loop, when it returns, stores the recomputed hash, meets
the target, and changes no field other than `nonce` and `hash`. -/
theorem mineLoop_some {t : Nat} :
    ∀ {fuel : Nat} {b b' : Block}, mineLoop b t fuel = some b' →
      b'.hash = b'.calculate_hash ∧ hashNum b'.hash ≤ t ∧
      b'.transactions = b.transactions ∧ b'.previous_hash = b.previous_hash ∧
      b'.difficulty = b.difficulty ∧ b'.timestamp = b.timestamp
  | 0, b, b', h => by simp [mineLoop] at h
  | fuel + 1, b, b', h => by
      simp only [mineLoop] at h
      by_cases hle : hashNum b.calculate_hash ≤ t
      · rw [if_pos hle] at h
        obtain rfl := Option.some.inj h
        exact ⟨(calculate_hash_set_hash b _).symm, hle, rfl, rfl, rfl, rfl⟩
      · rw [if_neg hle] at h
        obtain ⟨h1, h2, h3, h4, h5, h6⟩ := mineLoop_some h
        exact ⟨h1, h2, h3, h4, h5, h6⟩

/-- `Block::mine`, when it returns, seals the block: the stored hash is
the recomputation of the final fields and meets the `2^64 / 2^d - 1`
bound; only `nonce` and `hash` change, and `difficulty < 64`. -/
theorem mine_some {b b' : Block} {fuel : Nat} (h : b.mine fuel = some b') :
    b.difficulty < 64 ∧ b'.hash = b'.calculate_hash ∧
      hashNum b'.hash ≤ 2 ^ 64 / 2 ^ b.difficulty - 1 ∧
      b'.transactions = b.transactions ∧ b'.previous_hash = b.previous_hash ∧
      b'.difficulty = b.difficulty ∧ b'.timestamp = b.timestamp := by
  unfold Block.mine at h
  cases ht : target b.difficulty with
  | none => rw [ht] at h; cases h
  | some t =>
      rw [ht] at h
      have hd : b.difficulty < 64 := by
        by_contra hlt
        unfold target at ht
        rw [if_neg hlt] at ht
        cases ht
      have htv : t = 2 ^ 64 / 2 ^ b.difficulty - 1 := by
        rw [target_eq_of_lt hd] at ht
        exact (Option.some.inj ht).symm
      obtain ⟨h1, h2, h3, h4, h5, h6⟩ := mineLoop_some h
      refine ⟨hd, h1, ?_, h3, h4, h5, h6⟩
      rw [← htv]
      exact h2

/-- A freshly mined block carries a valid proof of work. -/
theorem has_valid_proof_after_mine {b b' : Block} {fuel : Nat}
    (h : b.mine fuel = some b') : b'.has_valid_proof = some true := by
  obtain ⟨hd, h1, h2, h3, h4, h5, h6⟩ := mine_some h
  unfold Block.has_valid_proof
  rw [h5, target_eq_of_lt hd]
  exact congrArg some (decide_eq_true h2)

/-- C3: whenever `Block::mine` returns, the stored hash equals the
recomputation of the resulting fields and its leading 8 bytes (as a
big-endian `u64`) are at most `2^64 / 2^difficulty - 1`; consequently
`has_valid_proof` holds and, when the transactions are non-empty and all
validate under the flag `g`, `verify g` succeeds immediately. -/
theorem C3_mine_seals_block (b : Block) (fuel : Nat) (b' : Block) (g : Bool)
    (h : b.mine fuel = some b') :
    b'.hash = b'.calculate_hash ∧
    hashNum b'.hash ≤ 2 ^ 64 / 2 ^ b'.difficulty - 1 ∧
    b'.has_valid_proof = some true ∧
    b'.transactions = b.transactions ∧ b'.previous_hash = b.previous_hash ∧
    b'.difficulty = b.difficulty ∧ b'.timestamp = b.timestamp ∧
    (b.transactions ≠ [] → firstTxError b.transactions g = none →
      b'.verify g = some (.ok ())) := by
  obtain ⟨hd, h1, h2, h3, h4, h5, h6⟩ := mine_some h
  have hpow := has_valid_proof_after_mine h
  refine ⟨h1, by rw [h5]; exact h2, hpow, h3, h4, h5, h6, ?_⟩
  intro hne hfe
  have htv : target b'.difficulty = some (2 ^ 64 / 2 ^ b'.difficulty - 1) := by
    rw [h5]
    exact target_eq_of_lt hd
  rw [verify_eq_ok_iff b' g htv]
  refine ⟨by rw [h3]; exact hne, by rw [h3]; exact hfe, h1, ?_⟩
  rw [h5]
  exact h2

/-- The transaction used by the concrete witnesses (sender `0x01^20`,
receiver `0x02^20`, amount 100, nonce 0). -/
def wTx : Transaction :=
  { sender := ⟨List.replicate 20 1⟩, receiver := ⟨List.replicate 20 2⟩,
    amount := 100, nonce := 0 }

/-- A concrete difficulty-1 block before mining. -/
def wBlock : Block :=
  { timestamp := 0, transactions := [wTx], previous_hash := zeros32,
    hash := zeros32, nonce := 0, difficulty := 1 }

/-- `wBlock` after sealing: its SHA-256 digest at nonce 0 already meets
the difficulty-1 target, so mining stores it without advancing the nonce. -/
def wMined : Block :=
  { wBlock with hash := wBlock.calculate_hash }

unseal sha256 in
/-- Witness for C3 at a concrete difficulty-1 block: one mining step
seals it and full verification succeeds. -/
theorem C3_mine_seals_block_witness :
    wMined.has_valid_proof = some true ∧ wMined.verify false = some (.ok ()) := by
  have h := C3_mine_seals_block wBlock 1 wMined false (by decide)
  exact ⟨h.2.2.1, h.2.2.2.2.2.2.2 (by decide) (by decide)⟩

/-- C4: for `difficulty < 64`, `has_valid_proof` holds exactly when the
big-endian `u64` of the stored hash's first 8 bytes is at most
`2^64 / 2^difficulty - 1`, equivalently when that value has at least
`difficulty` leading zero bits (its top `difficulty` bits of 64 are 0);
and the result depends only on the stored `hash` and `difficulty`. -/
theorem C4_has_valid_proof_target (b : Block) (hd : b.difficulty < 64) :
    (b.has_valid_proof = some true ↔
      hashNum b.hash ≤ 2 ^ 64 / 2 ^ b.difficulty - 1) ∧
    (hashNum b.hash ≤ 2 ^ 64 / 2 ^ b.difficulty - 1 ↔
      hashNum b.hash >>> (64 - b.difficulty) = 0) ∧
    (∀ b' : Block, b'.hash = b.hash → b'.difficulty = b.difficulty →
      b'.has_valid_proof = b.has_valid_proof) := by
  refine ⟨?_, ?_, ?_⟩
  · unfold Block.has_valid_proof
    rw [target_eq_of_lt hd]
    simp
  · have hpd : (2 : Nat) ^ 64 / 2 ^ b.difficulty = 2 ^ (64 - b.difficulty) :=
      Nat.pow_div (le_of_lt hd) (by norm_num)
    have hpose : 0 < (2 : Nat) ^ (64 - b.difficulty) := pow_pos (by norm_num) _
    rw [Nat.shiftRight_eq_div_pow, Nat.div_eq_zero_iff hpose, hpd]
    omega
  · intro b' hh hdq
    unfold Block.has_valid_proof
    rw [hh, hdq]

unseal sha256 in
/-- Witness for C4: the mined concrete block's proof is valid, by the
target bound on its first 8 bytes. -/
theorem C4_has_valid_proof_target_witness : wMined.has_valid_proof = some true :=
  (C4_has_valid_proof_target wMined (by decide)).1.mpr (by decide)

/-- C2 (amended): for every sealed block, a modification of the
transactions (kept non-empty and all validating under the flag), the
`previous_hash`, or the nonce whose recomputed digest differs from the
stored one makes `verify` fail with `InvalidHash` — before the
proof-of-work check is consulted. -/
theorem C2_tamper_fails_invalid_hash (b b' : Block) (g : Bool)
    (hsealed : b.hash = b.calculate_hash)
    (hhash : b'.hash = b.hash)
    (_hts : b'.timestamp = b.timestamp)
    (_hdf : b'.difficulty = b.difficulty)
    (hne : b'.transactions ≠ [])
    (hval : firstTxError b'.transactions g = none)
    (hdiff : b'.calculate_hash ≠ b.calculate_hash) :
    b'.verify g = some (.error .InvalidHash) := by
  rw [verify_eq_invalidHash_iff]
  refine ⟨hne, hval, ?_⟩
  rw [hhash, hsealed]
  exact fun hc => hdiff hc.symm

/-- `wMined` with its nonce tampered after sealing. -/
def tamperedNonceBlock : Block :=
  { wMined with nonce := 1 }

unseal sha256 in
/-- Witness for the amended C2: tampering with the sealed concrete
block's nonce makes `verify` fail with `InvalidHash`. -/
theorem C2_tamper_fails_invalid_hash_witness :
    tamperedNonceBlock.verify false = some (.error .InvalidHash) :=
  C2_tamper_fails_invalid_hash wMined tamperedNonceBlock false (by decide) rfl rfl rfl
    (by decide) (by decide) (by decide)

/-- `wMined` with its single transaction replaced by an invalid one
(amount 0) after sealing. -/
def tamperedTxBlock : Block :=
  { wMined with transactions := [{ wTx with amount := 0 }] }

unseal sha256 in
/-- Counterexample to C2 as stated: tampering with a *transaction* of a
sealed block need not surface `InvalidHash` — replacing the transaction
with an amount-0 one makes `verify` fail with the transaction validation
error, which runs before the hash-integrity check. -/
theorem C2_counterexample :
    wMined.hash = wMined.calculate_hash ∧
    tamperedTxBlock.previous_hash = wMined.previous_hash ∧
    tamperedTxBlock.nonce = wMined.nonce ∧
    tamperedTxBlock.hash = wMined.hash ∧
    tamperedTxBlock.transactions ≠ wMined.transactions ∧
    tamperedTxBlock.verify false =
      some (.error (.TransactionError .InvalidAmount)) ∧
    tamperedTxBlock.verify false ≠ some (.error .InvalidHash) := by
  refine ⟨by decide, rfl, rfl, rfl, by decide, by decide, by decide⟩

/-- A block with no transactions, used to instantiate C1. -/
def emptyTxBlock : Block :=
  { timestamp := 0, transactions := [], previous_hash := zeros32,
    hash := zeros32, nonce := 0, difficulty := 1 }

/-- Witness for C1 at a concrete block: the empty-transaction outcome. -/
theorem C1_block_verify_check_order_witness :
    emptyTxBlock.verify false = some (.error .EmptyTransactions) :=
  (C1_block_verify_check_order emptyTxBlock false).1.mpr rfl

/-! ### C9: the hash preimage and purity of `calculate_hash` -/

/-- Folding the per-transaction hasher updates equals flattening the
per-transaction encodings. -/
theorem foldl_txBytes (l : List Transaction) (acc : List Nat) :
    l.foldl
        (fun acc t => acc ++ t.sender.bytes ++ t.receiver.bytes
          ++ natToBeBytes 8 t.amount ++ natToBeBytes 8 t.nonce) acc
      = acc ++ (l.map fun t => t.sender.bytes ++ t.receiver.bytes
          ++ natToBeBytes 8 t.amount ++ natToBeBytes 8 t.nonce).flatten := by
  induction l generalizing acc with
  | nil => simp
  | cons t ts ih =>
      rw [List.foldl_cons, ih]
      simp [List.append_assoc]

/-- The hashed byte string as the specification describes it: the
big-endian unix timestamp, then for each transaction in sequence order
its sender bytes, receiver bytes, amount, and nonce, then the
`previous_hash`, then the block nonce. -/
def specBlockPreimage (b : Block) : List Nat :=
  i64ToBeBytes b.timestamp
    ++ (b.transactions.map fun t => t.sender.bytes ++ t.receiver.bytes
        ++ natToBeBytes 8 t.amount ++ natToBeBytes 8 t.nonce).flatten
    ++ b.previous_hash
    ++ natToBeBytes 8 b.nonce

/-- C9: `Block::calculate_hash` is the SHA-256 digest of exactly the
specified big-endian encoding of timestamp, per-transaction fields in
sequence order, `previous_hash`, and block nonce; it is a function of
exactly those four fields, so the `difficulty` and stored `hash` do not
affect it (and, being a pure function, repeated calls agree). -/
theorem C9_calculate_hash_is_spec_digest (b : Block) :
    b.calculate_hash = sha256 (specBlockPreimage b) ∧
    (∀ b' : Block, b'.timestamp = b.timestamp →
      b'.transactions = b.transactions → b'.previous_hash = b.previous_hash →
      b'.nonce = b.nonce → b'.calculate_hash = b.calculate_hash) := by
  constructor
  · refine congrArg sha256 ?_
    unfold blockBytes specBlockPreimage
    rw [foldl_txBytes]
    simp
  · intro b' h1 h2 h3 h4
    refine congrArg sha256 ?_
    unfold blockBytes
    rw [h1, h2, h3, h4]

/-- Witness for C9: the sealed concrete block hashes identically to its
pre-sealing version, whose non-hash fields it shares. -/
theorem C9_calculate_hash_is_spec_digest_witness :
    wMined.calculate_hash = wBlock.calculate_hash :=
  (C9_calculate_hash_is_spec_digest wBlock).2 wMined rfl rfl rfl rfl

/-! ### C10: difficulty ≥ 64 overflows the target computation -/

/-- The target computation panics exactly for difficulties ≥ 64. -/
theorem target_eq_none_iff (d : Nat) : target d = none ↔ 64 ≤ d := by
  unfold target
  split
  · simp; omega
  · simp; omega

/-- Mining a block of difficulty ≥ 64 panics before hashing anything. -/
theorem mine_eq_none_of_ge {b : Block} (hd : 64 ≤ b.difficulty) (fuel : Nat) :
    b.mine fuel = none := by
  unfold Block.mine
  rw [(target_eq_none_iff _).mpr hd]

/-- `has_valid_proof` panics for difficulty ≥ 64. -/
theorem has_valid_proof_eq_none_of_ge {b : Block} (hd : 64 ≤ b.difficulty) :
    b.has_valid_proof = none := by
  unfold Block.has_valid_proof
  rw [(target_eq_none_iff _).mpr hd]
  rfl

/-- The fields of a successfully constructed block. -/
theorem Block.new_ok {ts : Int} {txs : List Transaction} {ph : List Nat}
    {d : Nat} {b : Block} (h : Block.new ts txs ph d = .ok b) :
    b.timestamp = ts ∧ b.transactions = txs ∧ b.previous_hash = ph ∧
      b.difficulty = d ∧ b.nonce = 0 ∧ b.hash = b.calculate_hash := by
  unfold Block.new at h
  by_cases he : txs = []
  · rw [if_pos he] at h
    cases h
  · rw [if_neg he] at h
    obtain rfl := Except.ok.inj h
    exact ⟨rfl, rfl, rfl, rfl, rfl, (calculate_hash_set_hash _ _).symm⟩

/-- C10: the target `u64::MAX >> difficulty` is only well-defined for
difficulty < 64 — at 64 or above the shift overflows (`none`, a panic
under overflow checking), so `mine` and `has_valid_proof` never return
normally there, `verify` panics once it reaches the proof-of-work check,
and `Chain::new(64, …)`, which mines its genesis block, panics too. -/
theorem C10_difficulty_64_overflow :
    (∀ d, target d = none ↔ 64 ≤ d) ∧
    (∀ b : Block, 64 ≤ b.difficulty →
      b.has_valid_proof = none ∧ ∀ fuel, b.mine fuel = none) ∧
    (∀ (b : Block) (g : Bool), 64 ≤ b.difficulty → b.transactions ≠ [] →
      firstTxError b.transactions g = none → b.hash = b.calculate_hash →
      b.verify g = none) ∧
    (∀ (gtx : Option Transaction) (ts : Int) (fuel : Nat),
      Chain.new 64 gtx ts fuel = none) := by
  refine ⟨target_eq_none_iff, ?_, ?_, ?_⟩
  · intro b hd
    exact ⟨has_valid_proof_eq_none_of_ge hd, fun fuel => mine_eq_none_of_ge hd fuel⟩
  · intro b g hd hne hfe hh
    unfold Block.verify
    rw [if_neg hne, hfe]
    simp [hh, has_valid_proof_eq_none_of_ge hd]
  · intro gtx ts fuel
    simp only [Chain.new]
    cases hB : Block.new ts [gtx.getD defaultGenesisTx] zeros32 64 with
    | error e =>
        exfalso
        unfold Block.new at hB
        rw [if_neg (by simp)] at hB
        cases hB
    | ok gb =>
        have hd : gb.difficulty = 64 := (Block.new_ok hB).2.2.2.1
        have hmine := mine_eq_none_of_ge (b := gb) (by omega) fuel
        simp [hmine]

/-- Witness for C10: difficulty 64 makes the target computation panic,
and constructing a chain at difficulty 64 never returns. -/
theorem C10_difficulty_64_overflow_witness :
    target 64 = none ∧ Chain.new 64 none 0 1 = none :=
  ⟨(C10_difficulty_64_overflow.1 64).mpr (by decide),
   C10_difficulty_64_overflow.2.2.2 none 0 1⟩

/-! ### C7: mempool admission -/

/-- C7: `Mempool::add_transaction` rejects a duplicate content hash
before validating, rejects a transaction failing `validate(false)`
otherwise, and otherwise inserts into both the hash map and the
priority structure; the pool grows by exactly one on success and is
untouched on any failure. -/
theorem C7_add_transaction_admission (m : Mempool) (t : Transaction) :
    ((m.add_transaction t).1 = .error .DuplicateTransaction ↔
      containsKey t.hash m.transactions = true) ∧
    ((m.add_transaction t).1 = .error .InvalidTransaction ↔
      (containsKey t.hash m.transactions = false ∧
        ∃ e, t.validate false = .error e)) ∧
    ((m.add_transaction t).1 = .ok () ↔
      (containsKey t.hash m.transactions = false ∧
        t.validate false = .ok ())) ∧
    ((m.add_transaction t).1 = .ok () →
      (m.add_transaction t).2 =
        { transactions := m.transactions ++ [(t.hash, t)],
          priority_queue := t :: m.priority_queue } ∧
      (m.add_transaction t).2.len = m.len + 1) ∧
    ((m.add_transaction t).1 ≠ .ok () → (m.add_transaction t).2 = m) := by
  unfold Mempool.add_transaction
  by_cases hdup : containsKey t.hash m.transactions = true
  · simp [hdup]
  · cases hv : t.validate false with
    | error e =>
        simp [hdup, hv, Bool.not_eq_true _ ▸ hdup]
    | ok u =>
        cases u
        simp [hdup, hv, Mempool.len]

unseal sha256 in
/-- Witness for C7: admitting a valid transaction into the empty pool
succeeds and the pool grows to size one. -/
theorem C7_add_transaction_admission_witness :
    (Mempool.new.add_transaction wTx).1 = .ok () ∧
    (Mempool.new.add_transaction wTx).2.len = Mempool.new.len + 1 := by
  have h := C7_add_transaction_admission Mempool.new wTx
  have hok : (Mempool.new.add_transaction wTx).1 = .ok () :=
    h.2.2.1.mpr ⟨by decide, by decide⟩
  exact ⟨hok, (h.2.2.2.1 hok).2⟩

/-! ### C8: mempool ordered selection -/

/-- C8: on a well-formed pool, `get_transactions limit` returns exactly
`min limit (pool size)` transactions, each currently admitted (its
content hash maps to it), sorted by ascending nonce; the pool itself is
not touched (the embedding of the `&self` method returns no state). -/
theorem C8_get_transactions_sorted (m : Mempool) (limit : Nat) (hwf : m.WF) :
    (m.get_transactions limit).length = min limit m.len ∧
    (∀ t ∈ m.get_transactions limit, m.contains t = true) ∧
    List.Sorted byNonce (m.get_transactions limit) := by
  obtain ⟨hlen, hmem⟩ := hwf
  refine ⟨?_, ?_, ?_⟩
  · unfold Mempool.get_transactions Mempool.len
    rw [List.length_take,
      (List.perm_insertionSort byNonce m.priority_queue).length_eq, hlen]
  · intro t ht
    unfold Mempool.get_transactions at ht
    have h1 : t ∈ List.insertionSort byNonce m.priority_queue :=
      List.mem_of_mem_take ht
    have h2 : t ∈ m.priority_queue :=
      (List.perm_insertionSort byNonce m.priority_queue).mem_iff.mp h1
    unfold Mempool.contains containsKey
    rw [hmem t h2]
    rfl
  · exact List.Pairwise.sublist (List.take_sublist _ _)
      (List.sorted_insertionSort byNonce m.priority_queue)

/-- A second witness transaction with a larger nonce. -/
def wTx5 : Transaction :=
  { sender := ⟨List.replicate 20 1⟩, receiver := ⟨List.replicate 20 2⟩,
    amount := 7, nonce := 5 }

/-- A third witness transaction with nonce between 0 and 5. -/
def wTx3 : Transaction :=
  { sender := ⟨List.replicate 20 3⟩, receiver := ⟨List.replicate 20 4⟩,
    amount := 9, nonce := 3 }

/-- A concrete two-transaction pool, admitted in descending nonce order. -/
def wPool : Mempool :=
  ((Mempool.new.add_transaction wTx5).2.add_transaction wTx3).2

unseal sha256 in
/-- Witness for C8 on the concrete pool: two transactions come back,
sorted by nonce. -/
theorem C8_get_transactions_sorted_witness :
    (wPool.get_transactions 10).length = min 10 wPool.len ∧
    List.Sorted byNonce (wPool.get_transactions 10) := by
  have h := C8_get_transactions_sorted wPool 10 (by decide)
  exact ⟨h.1, h.2.2⟩

/-! ### Helper lemmas: the pairwise chain walk -/

/-- The link relation checked by `Chain::verify`'s walk. -/
def linkedTo (p q : Block) : Prop := q.previous_hash = p.hash

instance : DecidableRel linkedTo := fun p q =>
  inferInstanceAs (Decidable (q.previous_hash = p.hash))

/-- The pairwise walk succeeds exactly when every block links to its
predecessor and passes strict verification. -/
theorem verifyLinks_ok_iff (prev : Block) (rest : List Block) :
    verifyLinks prev rest = some (.ok ()) ↔
      (List.Chain linkedTo prev rest ∧
        ∀ b ∈ rest, b.verify false = some (.ok ())) := by
  induction rest generalizing prev with
  | nil => simp [verifyLinks]
  | cons cur rest ih =>
      simp only [verifyLinks]
      by_cases hl : cur.previous_hash = prev.hash
      · simp only [hl, ne_eq, not_true_eq_false, if_false]
        cases hv : cur.verify false with
        | none => simp [List.chain_cons, linkedTo, hl, hv]
        | some r =>
            cases r with
            | error e => simp [List.chain_cons, linkedTo, hl, hv]
            | ok u =>
                cases u
                simp [List.chain_cons, linkedTo, hl, hv, ih]
      · simp [hl, List.chain_cons, linkedTo]

/-- The pairwise walk only ever fails with a link error or a wrapped
block error. -/
theorem verifyLinks_error_cases (prev : Block) (rest : List Block) :
    ∀ r, verifyLinks prev rest = some (.error r) →
      r = .InvalidBlockLink ∨ ∃ e, r = .BlockValidation e := by
  induction rest generalizing prev with
  | nil => intro r h; simp [verifyLinks] at h
  | cons cur rest ih =>
      intro r h
      simp only [verifyLinks] at h
      by_cases hl : cur.previous_hash = prev.hash
      · rw [if_neg (by simp [hl])] at h
        cases hv : cur.verify false with
        | none => rw [hv] at h; cases h
        | some res =>
            rw [hv] at h
            cases res with
            | error e =>
                have h' : some (Except.error (ChainError.BlockValidation e)) =
                    some (Except.error r) := h
                exact Or.inr ⟨e, (Except.error.inj (Option.some.inj h')).symm⟩
            | ok u => cases u; exact ih cur r h
      · rw [if_pos hl] at h
        have := Option.some.inj h
        cases this
        exact Or.inl rfl

/-- If every block before `cur` links and verifies but `cur`'s
`previous_hash` does not match its predecessor's hash, the walk stops
with `InvalidBlockLink`. -/
theorem verifyLinks_first_link_fail (cur : Block) (post : List Block) :
    ∀ (prev : Block) (pre : List Block),
      List.Chain linkedTo prev pre →
      (∀ b ∈ pre, b.verify false = some (.ok ())) →
      cur.previous_hash ≠ ((prev :: pre).getLast (List.cons_ne_nil prev pre)).hash →
      verifyLinks prev (pre ++ cur :: post) = some (.error .InvalidBlockLink) := by
  intro prev pre
  induction pre generalizing prev with
  | nil =>
      intro _ _ hne
      simp only [List.getLast_singleton] at hne
      simp only [List.nil_append, verifyLinks]
      rw [if_pos hne]
  | cons p ps ih =>
      intro hchain hok hne
      obtain ⟨hlink, hchain'⟩ := List.chain_cons.mp hchain
      rw [List.cons_append]
      simp only [verifyLinks]
      rw [if_neg (by simp [linkedTo] at hlink; simp [hlink])]
      rw [hok p (by simp)]
      refine ih p hchain' (fun b hb => hok b (by simp [hb])) ?_
      rw [← List.getLast_cons (List.cons_ne_nil p ps)]
      exact hne

/-- If every block before `cur` links and verifies, `cur` links, but
`cur` fails strict verification with `e`, the walk stops with the
wrapped block error. -/
theorem verifyLinks_first_block_fail (cur : Block) (post : List Block)
    (e : BlockError) :
    ∀ (prev : Block) (pre : List Block),
      List.Chain linkedTo prev pre →
      (∀ b ∈ pre, b.verify false = some (.ok ())) →
      cur.previous_hash = ((prev :: pre).getLast (List.cons_ne_nil prev pre)).hash →
      cur.verify false = some (.error e) →
      verifyLinks prev (pre ++ cur :: post) = some (.error (.BlockValidation e)) := by
  intro prev pre
  induction pre generalizing prev with
  | nil =>
      intro _ _ hlk hv
      simp only [List.getLast_singleton] at hlk
      simp only [List.nil_append, verifyLinks]
      rw [if_neg (by simp [hlk]), hv]
  | cons p ps ih =>
      intro hchain hok hlk hv
      obtain ⟨hlink, hchain'⟩ := List.chain_cons.mp hchain
      rw [List.cons_append]
      simp only [verifyLinks]
      rw [if_neg (by simp [linkedTo] at hlink; simp [hlink])]
      rw [hok p (by simp)]
      refine ih p hchain' (fun b hb => hok b (by simp [hb])) ?_ hv
      rw [← List.getLast_cons (List.cons_ne_nil p ps)]
      exact hlk

/-- `Chain::verify` on a non-empty block list, unfolded once. -/
theorem chain_verify_cons (c : Chain) (g : Block) (rest : List Block)
    (hb : c.blocks = g :: rest) :
    c.verify =
      (if g.previous_hash ≠ zeros32 then some (.error .InvalidGenesis)
       else
         match g.verify true with
         | none => none
         | some (.error e) => some (.error (.BlockValidation e))
         | some (.ok _) => verifyLinks g rest) := by
  unfold Chain.verify
  rw [hb]

/-- C6: `Chain::verify` returns `EmptyChain` exactly on an empty block
sequence; otherwise `InvalidGenesis` exactly when the first block's
`previous_hash` is not 32 zero bytes; otherwise it propagates the
genesis block's relaxed-verification error; it succeeds exactly when the
genesis checks pass, every later block links to its predecessor, and
every later block passes strict verification; and on the first offending
block of the walk it returns `InvalidBlockLink` for a broken link, or
the wrapped error of the first block failing strict verification. -/
theorem C6_chain_verify_walk (c : Chain) :
    (c.verify = some (.error .EmptyChain) ↔ c.blocks = []) ∧
    (c.verify = some (.error .InvalidGenesis) ↔
      ∃ g rest, c.blocks = g :: rest ∧ g.previous_hash ≠ zeros32) ∧
    (∀ g rest e, c.blocks = g :: rest → g.previous_hash = zeros32 →
      g.verify true = some (.error e) →
      c.verify = some (.error (.BlockValidation e))) ∧
    (c.verify = some (.ok ()) ↔
      ∃ g rest, c.blocks = g :: rest ∧ g.previous_hash = zeros32 ∧
        g.verify true = some (.ok ()) ∧ List.Chain linkedTo g rest ∧
        ∀ b ∈ rest, b.verify false = some (.ok ())) ∧
    (∀ g pre cur post, c.blocks = g :: (pre ++ cur :: post) →
      g.previous_hash = zeros32 → g.verify true = some (.ok ()) →
      List.Chain linkedTo g pre →
      (∀ b ∈ pre, b.verify false = some (.ok ())) →
      ((cur.previous_hash ≠ ((g :: pre).getLast (List.cons_ne_nil g pre)).hash →
          c.verify = some (.error .InvalidBlockLink)) ∧
        (∀ e, cur.previous_hash = ((g :: pre).getLast (List.cons_ne_nil g pre)).hash →
          cur.verify false = some (.error e) →
          c.verify = some (.error (.BlockValidation e))))) := by
  refine ⟨?_, ?_, ?_, ?_, ?_⟩
  · cases hb : c.blocks with
    | nil => simp [Chain.verify, hb]
    | cons g rest =>
        rw [chain_verify_cons c g rest hb]
        constructor
        · intro h
          exfalso
          by_cases hg : g.previous_hash = zeros32
          · rw [if_neg (by simp [hg])] at h
            cases hv : g.verify true with
            | none => rw [hv] at h; cases h
            | some r =>
                rw [hv] at h
                cases r with
                | error e => simp at h
                | ok u =>
                    cases u
                    rcases verifyLinks_error_cases g rest _ h with h' | ⟨e, h'⟩ <;>
                      simp at h'
          · rw [if_pos (by simp [hg])] at h
            simp at h
        · intro h
          simp at h
  · cases hb : c.blocks with
    | nil =>
        simp only [Chain.verify, hb]
        constructor
        · intro h; simp at h
        · rintro ⟨g, rest, h, -⟩; simp at h
    | cons g rest =>
        rw [chain_verify_cons c g rest hb]
        constructor
        · intro h
          by_cases hg : g.previous_hash = zeros32
          · exfalso
            rw [if_neg (by simp [hg])] at h
            cases hv : g.verify true with
            | none => rw [hv] at h; cases h
            | some r =>
                rw [hv] at h
                cases r with
                | error e => simp at h
                | ok u =>
                    cases u
                    rcases verifyLinks_error_cases g rest _ h with h' | ⟨e, h'⟩ <;>
                      simp at h'
          · exact ⟨g, rest, rfl, hg⟩
        · rintro ⟨g', rest', hb', hg'⟩
          cases hb'
          rw [if_pos (by simp [hg'])]
  · intro g rest e hb hg hv
    rw [chain_verify_cons c g rest hb, if_neg (by simp [hg]), hv]
  · constructor
    · intro h
      cases hb : c.blocks with
      | nil => simp [Chain.verify, hb] at h
      | cons g rest =>
          rw [chain_verify_cons c g rest hb] at h
          by_cases hg : g.previous_hash = zeros32
          · rw [if_neg (by simp [hg])] at h
            cases hv : g.verify true with
            | none => rw [hv] at h; cases h
            | some r =>
                rw [hv] at h
                cases r with
                | error e => simp at h
                | ok u =>
                    cases u
                    obtain ⟨hch, hall⟩ := (verifyLinks_ok_iff g rest).mp h
                    exact ⟨g, rest, rfl, hg, hv, hch, hall⟩
          · rw [if_pos (by simp [hg])] at h
            simp at h
    · rintro ⟨g, rest, hb, hg, hv, hch, hall⟩
      rw [chain_verify_cons c g rest hb, if_neg (by simp [hg]), hv]
      exact (verifyLinks_ok_iff g rest).mpr ⟨hch, hall⟩
  · intro g pre cur post hb hg hgv hchain hpre
    constructor
    · intro hne
      rw [chain_verify_cons c g (pre ++ cur :: post) hb, if_neg (by simp [hg]),
        hgv]
      exact verifyLinks_first_link_fail cur post g pre hchain hpre hne
    · intro e hlk hv
      rw [chain_verify_cons c g (pre ++ cur :: post) hb, if_neg (by simp [hg]),
        hgv]
      exact verifyLinks_first_block_fail cur post e g pre hchain hpre hlk hv

/-- A one-block chain whose genesis `previous_hash` is not all-zero. -/
def badGenesisBlock : Block :=
  { timestamp := 0, transactions := [wTx], previous_hash := List.replicate 32 1,
    hash := zeros32, nonce := 0, difficulty := 1 }

/-- The chain holding `badGenesisBlock` alone. -/
def badGenesisChain : Chain :=
  { blocks := [badGenesisBlock], current_difficulty := 1,
    mempool := Mempool.new }

/-- Witness for C6: a tampered genesis `previous_hash` surfaces
`InvalidGenesis`. -/
theorem C6_chain_verify_walk_witness :
    badGenesisChain.verify = some (.error .InvalidGenesis) :=
  (C6_chain_verify_walk badGenesisChain).2.1.mpr
    ⟨badGenesisBlock, [], rfl, by decide⟩

/-! ### C5: all-or-nothing `Chain::add_block` -/

/-- The selected batch consists of lowest-nonce pending transactions:
the heap contents split (up to permutation) into the batch and the
remainder, and every selected nonce is at most every remaining nonce. -/
theorem get_transactions_lowest (m : Mempool) (limit : Nat) :
    ∃ dropped, m.priority_queue.Perm (m.get_transactions limit ++ dropped) ∧
      ∀ x ∈ m.get_transactions limit, ∀ y ∈ dropped, x.nonce ≤ y.nonce := by
  refine ⟨(List.insertionSort byNonce m.priority_queue).drop limit, ?_, ?_⟩
  · unfold Mempool.get_transactions
    rw [List.take_append_drop]
    exact (List.perm_insertionSort byNonce m.priority_queue).symm
  · intro x hx y hy
    have hs := List.sorted_insertionSort byNonce m.priority_queue
    rw [← List.take_append_drop limit
      (List.insertionSort byNonce m.priority_queue)] at hs
    exact (List.pairwise_append.mp hs).2.2 x hx y hy

/-- C5: `Chain::add_block` is all-or-nothing. With no pending
transactions it succeeds as a no-op (chain and mempool untouched); on
any error the chain and mempool are untouched; on a growing success it
appends exactly one block whose transactions are the selected batch
`get_transactions 10`, whose `previous_hash` is the old tail's hash and
whose difficulty is the chain's current difficulty, and exactly that
batch is evicted from the mempool — eviction happens only together with
the successful append. -/
theorem C5_add_block_atomic (c : Chain) (ts : Int) (fuel : Nat)
    (hne : c.blocks ≠ []) :
    (c.mempool.get_transactions 10 = [] →
      c.add_block ts fuel = some (.ok (), c)) ∧
    (∀ e c', c.add_block ts fuel = some (.error e, c') → c' = c) ∧
    (∀ c', c.add_block ts fuel = some (.ok (), c') →
      c.mempool.get_transactions 10 ≠ [] →
      ∃ b, c'.blocks = c.blocks ++ [b] ∧
        b.transactions = c.mempool.get_transactions 10 ∧
        b.previous_hash = (c.blocks.getLast hne).hash ∧
        b.difficulty = c.current_difficulty ∧
        b.verify false = some (.ok ()) ∧
        c'.mempool = c.mempool.remove_transactions (c.mempool.get_transactions 10) ∧
        c'.current_difficulty = c.current_difficulty ∧
        ∃ dropped, c.mempool.priority_queue.Perm (b.transactions ++ dropped) ∧
          ∀ x ∈ b.transactions, ∀ y ∈ dropped, x.nonce ≤ y.nonce) := by
  have hlast : c.blocks.getLast? = some (c.blocks.getLast hne) :=
    List.getLast?_eq_getLast c.blocks hne
  unfold Chain.add_block
  rw [hlast]
  dsimp only
  by_cases hg : c.mempool.get_transactions 10 = []
  · rw [if_pos hg]
    refine ⟨fun _ => rfl, ?_, ?_⟩
    · intro e c' h
      have := Option.some.inj h
      cases this
    · intro c' h hg'
      exact absurd hg hg'
  · rw [if_neg hg]
    cases hB : Block.new ts (c.mempool.get_transactions 10)
        (c.blocks.getLast hne).hash c.current_difficulty with
    | error e =>
        refine ⟨fun h => absurd h hg, ?_, ?_⟩
        · intro e' c' h
          exact (Prod.mk.injEq .. ▸ Option.some.inj h).2.symm ▸ rfl
        · intro c' h
          have := (Prod.mk.injEq .. ▸ Option.some.inj h).1
          cases this
    | ok nb =>
        obtain ⟨hts, htx, hph, hd, -, -⟩ := Block.new_ok hB
        dsimp only
        cases hm : nb.mine fuel with
        | none =>
            dsimp only
            refine ⟨fun h => absurd h hg, ?_, ?_⟩
            · intro e' c' h; cases h
            · intro c' h; cases h
        | some mined =>
            dsimp only
            obtain ⟨-, -, -, hmtx, hmph, hmd, -⟩ := mine_some hm
            cases hv : mined.verify false with
            | none =>
                dsimp only
                refine ⟨fun h => absurd h hg, ?_, ?_⟩
                · intro e' c' h; cases h
                · intro c' h; cases h
            | some r =>
                cases r with
                | error e =>
                    dsimp only
                    refine ⟨fun h => absurd h hg, ?_, ?_⟩
                    · intro e' c' h
                      exact (Prod.mk.injEq .. ▸ Option.some.inj h).2.symm ▸ rfl
                    · intro c' h
                      have := (Prod.mk.injEq .. ▸ Option.some.inj h).1
                      cases this
                | ok u =>
                    cases u
                    dsimp only
                    refine ⟨fun h => absurd h hg, ?_, ?_⟩
                    · intro e' c' h
                      have := (Prod.mk.injEq .. ▸ Option.some.inj h).1
                      cases this
                    · intro c' h hg'
                      have hpair := Option.some.inj h
                      have hc' : c' =
                          { blocks := c.blocks ++ [mined],
                            current_difficulty := c.current_difficulty,
                            mempool := c.mempool.remove_transactions
                              (c.mempool.get_transactions 10) } :=
                        (Prod.mk.injEq .. ▸ hpair).2.symm
                      subst hc'
                      refine ⟨mined, rfl, ?_, ?_, ?_, hv, rfl, rfl, ?_⟩
                      · rw [hmtx, htx]
                      · rw [hmph, hph]
                      · rw [hmd, hd]
                      · rw [hmtx, htx]
                        exact get_transactions_lowest c.mempool 10

/-- A concrete one-block chain with an empty mempool. -/
def wChain : Chain :=
  { blocks := [wMined], current_difficulty := 1, mempool := Mempool.new }

/-- Witness for C5: with no pending transactions, `add_block` is a
succeeding no-op. -/
theorem C5_add_block_atomic_witness :
    wChain.add_block 0 1 = some (.ok (), wChain) :=
  (C5_add_block_atomic wChain 0 1 (by decide)).1 (by decide)
